import Mathlib

/-!
# Base24 codec: shallow embedding and verification

Shallow embedding of the Base24 codec (`src/lib.rs`, `src/errors.rs`):
a fixed 24-symbol alphabet, `encode` turning each 4-byte chunk
(big-endian u32) into 7 symbols, and `decode` inverting it with
case-insensitive lookup and explicit error values.

Modelling conventions:
* bytes (`u8`) are `Nat` with a `< 256` bound where it matters;
* `u32` arithmetic carries explicit `% 2 ^ 32` where the Rust code can wrap
  (the decode fold; Rust release-mode wrapping semantics, as documented);
* Rust `&str` values are `List Char`; Rust `str::len` is the UTF-8 byte
  count, modelled by `utf8Len`;
* the `unreachable!()` branch inside the decode fold is modelled by
  `Option`: a `none` result of `decode` corresponds to a panic;
* `slice::chunks(4)` / `chunks(7)` are `chunks4` / `chunks7`, peeling
  groups structurally, with a shorter final group exactly as in Rust.
-/

namespace Base24

/-- `Base24Error` from `src/errors.rs`. -/
inductive Base24Error where
  | EncodeInputLengthInvalid : Base24Error
  | DecodeInputLengthInvalid : Base24Error
  | DecodeUnsupportedCharacter : Char → Base24Error
deriving DecidableEq, Repr

/-- `const ALPHABET: &str = "ZAC2B3EF4GH5TK67P8RS9WXY"` (as its character list). -/
def ALPHABET : List Char := "ZAC2B3EF4GH5TK67P8RS9WXY".data

/-- `const ALPHABET_LENGTH: usize = ALPHABET.len()` (all chars are ASCII, so
byte length = char count = 24). -/
def ALPHABET_LENGTH : Nat := ALPHABET.length

/-- Lowercased alphabet, `ALPHABET.to_lowercase()` (ASCII-only, so Rust's
Unicode lowercasing agrees with per-char ASCII lowercasing). -/
def alphabetLower : List Char := ALPHABET.map Char.toLower

/-- `encode_map: BTreeMap<usize, char>` built from `ALPHABET.char_indices()`.
Lookup `self.encode_map[&idx]` panics on a missing key, which never happens
since `idx = value % 24 < ALPHABET.len()`; the default `'Z'` is never reached. -/
def encodeMap (idx : Nat) : Char := ALPHABET.getD idx 'Z'

/-- The key/value pairs inserted into `decode_map`: the canonical-case
alphabet followed by the lowercased alphabet, each char paired with its
index.  (`char_indices` yields byte offsets; for this ASCII alphabet they
equal character indices.) -/
def decodeMapList : List (Char × Nat) :=
  (ALPHABET.enum.map fun p => (p.2, p.1)) ++
    (alphabetLower.enum.map fun p => (p.2, p.1))

/-- Lookup in `decode_map: BTreeMap<char, usize>`.  `List.lookup` takes the
first binding; the only keys bound twice (digits, identical under
lowercasing) are bound to the same value both times, so this agrees with
the `BTreeMap` last-insert-wins semantics. -/
def decodeMapLookup (c : Char) : Option Nat := decodeMapList.lookup c

/-- UTF-8 byte length of a string, Rust's `str::len`. -/
def utf8Len (s : List Char) : Nat := (s.map Char.utf8Size).sum

/-- `data.chunks(4)`: consecutive groups of 4, last group possibly shorter. -/
def chunks4 : List α → List (List α)
  | b0 :: b1 :: b2 :: b3 :: rest => [b0, b1, b2, b3] :: chunks4 rest
  | [] => []
  | l => [l]

/-- `char_vec.chunks(7)`: consecutive groups of 7, last group possibly shorter. -/
def chunks7 : List α → List (List α)
  | c0 :: c1 :: c2 :: c3 :: c4 :: c5 :: c6 :: rest =>
      [c0, c1, c2, c3, c4, c5, c6] :: chunks7 rest
  | [] => []
  | l => [l]

/-- `u32::from_be_bytes([b0, b1, b2, b3])`. -/
def u32fromBeBytes (b0 b1 b2 b3 : Nat) : Nat :=
  ((b0 * 256 + b1) * 256 + b2) * 256 + b3

/-- `u32::to_be_bytes` as a list of 4 byte values, most significant first. -/
def u32toBeBytes (v : Nat) : List Nat :=
  [v / 2 ^ 24 % 256, v / 2 ^ 16 % 256, v / 2 ^ 8 % 256, v % 256]

/-- The 7-iteration digit loop of `encode`: repeatedly take
`value % ALPHABET_LENGTH` as the next symbol and divide, yielding symbols
least-significant-first. -/
def encodeDigits : Nat → Nat → List Char
  | 0, _ => []
  | n + 1, value =>
      encodeMap (value % ALPHABET_LENGTH) :: encodeDigits n (value / ALPHABET_LENGTH)

/-- One chunk of `encode`: the 7 digits, reversed to most-significant-first
order (the `.rev()` in the Rust code). -/
def encodeChunk (value : Nat) : List Char := (encodeDigits 7 value).reverse

/-- The success branch of `encode`: chunk, read each chunk as a big-endian
u32, emit 7 symbols per chunk, concatenate (the `collect` into a `String`).
The slice indexing `chunk[0] .. chunk[3]` is total because `encode` only
calls this when every chunk has 4 elements, so the `getD` defaults are
never reached. -/
def encBody (data : List Nat) : List Char :=
  ((chunks4 data).map fun chunk =>
    encodeChunk (u32fromBeBytes (chunk.getD 0 0) (chunk.getD 1 0)
      (chunk.getD 2 0) (chunk.getD 3 0))).flatten

/-- `Base24::encode` (and the top-level `encode`, which just builds the
codec and delegates).  Bytes are `Nat`s. -/
def encode (data : List Nat) : Except Base24Error (List Char) :=
  if data.length % 4 ≠ 0 then
    .error .EncodeInputLengthInvalid
  else
    .ok (encBody data)

/-- The decode fold over one 7-char group:
`chunks.iter().fold(0u32, |acc, kar| ALPHABET_LENGTH as u32 * acc + idx)`.
The u32 multiply-add wraps, hence the `% 2 ^ 32`.  A `none` result models
the `unreachable!()` panic on a character missing from `decode_map`. -/
def foldGroup : List Char → Nat → Option Nat
  | [], acc => some acc
  | c :: rest, acc =>
      match decodeMapLookup c with
      | some idx => foldGroup rest ((ALPHABET_LENGTH * acc + idx) % 2 ^ 32)
      | none => none

/-- The `.map(|chunks| chunks.iter().fold(...))` stage of `decode`, applied
to every 7-char group; `none` propagates a panic of the fold
(the `unreachable!()` branch). -/
def foldGroups : List (List Char) → Option (List Nat)
  | [] => some []
  | g :: gs =>
      match foldGroup g 0 with
      | some v =>
          match foldGroups gs with
          | some vs => some (v :: vs)
          | none => none
      | none => none

/-- `Base24::decode` (and the top-level `decode`).  The outer `Option`
models panics: `none` would mean the `unreachable!()` branch ran.
`data.len() % 7` is the Rust byte length of the `&str`, i.e. `utf8Len`;
the validation loop returns the first unsupported character. -/
def decode (data : List Char) : Option (Except Base24Error (List Nat)) :=
  if utf8Len data % 7 ≠ 0 then
    some (.error .DecodeInputLengthInvalid)
  else
    match data.find? (fun c => (decodeMapLookup c).isNone) with
    | some c => some (.error (.DecodeUnsupportedCharacter c))
    | none =>
        match foldGroups (chunks7 data) with
        | some vals => some (.ok (vals.flatMap u32toBeBytes))
        | none => none

/-- One step of the decode fold, without the 32-bit wraparound. -/
def foldStep (acc : Nat) (c : Char) : Nat :=
  ALPHABET_LENGTH * acc + (decodeMapLookup c).getD 0

/-- The mathematical radix-24 value of a group (no 32-bit wraparound),
reading characters most-significant-first; unsupported characters count
as digit 0 (they never occur where this is used). -/
def groupVal (g : List Char) : Nat := g.foldl foldStep 0

end Base24

namespace Base24

/-! ## Basic facts about the tables (established by computation) -/

/-- Decoding a canonical symbol recovers its digit. -/
theorem lookup_encodeMap : ∀ d < 24, decodeMapLookup (encodeMap d) = some d := by decide

/-- Every key of `decode_map` is a 1-byte (ASCII) character and every bound
digit value is below 24. -/
theorem decodeMapList_ascii : ∀ p ∈ decodeMapList, p.1.utf8Size = 1 ∧ p.2 < 24 := by decide

/-- ASCII case-mapping a key of `decode_map` does not change its digit value. -/
theorem decodeMapList_case :
    ∀ p ∈ decodeMapList, decodeMapLookup (Char.toLower p.1) = decodeMapLookup p.1 ∧
      decodeMapLookup (Char.toUpper p.1) = decodeMapLookup p.1 := by decide

/-- Canonical symbols are ASCII. -/
theorem encodeMap_utf8Size : ∀ d < 24, Char.utf8Size (encodeMap d) = 1 := by decide

theorem mem_of_lookup_eq_some {l : List (Char × Nat)} {c : Char} {i : Nat}
    (h : l.lookup c = some i) : (c, i) ∈ l := by
  induction l with
  | nil => simp [List.lookup] at h
  | cons p rest ih =>
    obtain ⟨k, v⟩ := p
    rw [List.lookup] at h
    by_cases hc : c = k
    · subst hc; simp at h; simp [h]
    · have : (c == k) = false := beq_false_of_ne hc
      rw [this] at h
      exact List.mem_cons_of_mem _ (ih h)

/-- A successfully decoded character is ASCII and its digit is below 24. -/
theorem lookup_some_ascii {c : Char} {i : Nat} (h : decodeMapLookup c = some i) :
    c.utf8Size = 1 ∧ i < 24 :=
  decodeMapList_ascii (c, i) (mem_of_lookup_eq_some h)

/-! ## The decode fold -/

/-- `foldGroup` splits over list append. -/
theorem foldGroup_append (l₁ l₂ : List Char) (acc : Nat) :
    foldGroup (l₁ ++ l₂) acc =
      match foldGroup l₁ acc with
      | some m => foldGroup l₂ m
      | none => none := by
  induction l₁ generalizing acc with
  | nil => simp [foldGroup]
  | cons c rest ih =>
    simp only [List.cons_append, foldGroup]
    cases decodeMapLookup c with
    | none => simp
    | some idx => simp [ih]

/-- On a group of supported characters, the wrapping fold computes the pure
radix-24 value reduced modulo `2 ^ 32`. -/
theorem foldGroup_eq_groupVal_aux (g : List Char)
    (hvalid : ∀ c ∈ g, (decodeMapLookup c).isSome) (a : Nat) :
    foldGroup g (a % 2 ^ 32) = some (g.foldl foldStep a % 2 ^ 32) := by
  induction g generalizing a with
  | nil => simp [foldGroup]
  | cons c rest ih =>
    have hc : (decodeMapLookup c).isSome := hvalid c (by simp)
    obtain ⟨idx, hidx⟩ := Option.isSome_iff_exists.mp hc
    have hrest : ∀ x ∈ rest, (decodeMapLookup x).isSome := fun x hx =>
      hvalid x (List.mem_cons_of_mem _ hx)
    simp only [foldGroup, hidx, List.foldl_cons]
    have hmod : (ALPHABET_LENGTH * (a % 2 ^ 32) + idx) % 2 ^ 32 =
        (ALPHABET_LENGTH * a + idx) % 2 ^ 32 := by
      have h24 : ALPHABET_LENGTH = 24 := rfl
      rw [h24]; omega
    rw [hmod, ih hrest]
    simp [foldStep, hidx]



/-- Starting from accumulator `0` (as the Rust fold does), the wrapping fold
computes `groupVal` modulo `2 ^ 32` on supported characters. -/
theorem foldGroup_eq_groupVal (g : List Char)
    (hvalid : ∀ c ∈ g, (decodeMapLookup c).isSome) :
    foldGroup g 0 = some (groupVal g % 2 ^ 32) := by
  have h := foldGroup_eq_groupVal_aux g hvalid 0
  simpa [groupVal] using h

/-- The fold never hits the `unreachable!()` branch on supported characters. -/
theorem foldGroup_isSome (g : List Char)
    (hvalid : ∀ c ∈ g, (decodeMapLookup c).isSome) (a : Nat) :
    (foldGroup g a).isSome := by
  induction g generalizing a with
  | nil => simp [foldGroup]
  | cons c rest ih =>
    have hc := hvalid c (by simp)
    obtain ⟨idx, hidx⟩ := Option.isSome_iff_exists.mp hc
    simp only [foldGroup, hidx]
    exact ih (fun x hx => hvalid x (List.mem_cons_of_mem _ hx)) _

/-! ## The encode digit loop -/

theorem encodeDigits_length (n v : Nat) : (encodeDigits n v).length = n := by
  induction n generalizing v with
  | zero => simp [encodeDigits]
  | succ k ih => simp [encodeDigits, ih]

theorem encodeDigits_mem (n v : Nat) :
    ∀ c ∈ encodeDigits n v, ∃ d < 24, c = encodeMap d := by
  induction n generalizing v with
  | zero => simp [encodeDigits]
  | succ k ih =>
    intro c hc
    rcases (List.mem_cons.mp hc) with h | h
    · exact ⟨v % ALPHABET_LENGTH, Nat.mod_lt _ (by decide), h⟩
    · exact ih _ c h

/-- Every character `encode` can emit is a supported `decode_map` key. -/
theorem encodeDigits_valid (n v : Nat) :
    ∀ c ∈ encodeDigits n v, (decodeMapLookup c).isSome := by
  intro c hc
  obtain ⟨d, hd, rfl⟩ := encodeDigits_mem n v c hc
  simp [lookup_encodeMap d hd]

/-- Folding the (reversed, most-significant-first) digits of `v` back with
the pure radix-24 step reconstructs `v` modulo `24 ^ n`. -/
theorem foldl_encodeDigits_reverse (n : Nat) : ∀ v a : Nat,
    ((encodeDigits n v).reverse).foldl foldStep a = a * 24 ^ n + v % 24 ^ n := by
  induction n with
  | zero => intro v a; simp [encodeDigits, Nat.mod_one]
  | succ k ih =>
    intro v a
    have hd : (decodeMapLookup (encodeMap (v % ALPHABET_LENGTH))).getD 0 =
        v % ALPHABET_LENGTH := by
      have h24 : ALPHABET_LENGTH = 24 := rfl
      rw [h24, lookup_encodeMap _ (Nat.mod_lt _ (by decide))]; rfl
    have h24 : ALPHABET_LENGTH = 24 := rfl
    simp only [encodeDigits, List.reverse_cons, List.foldl_append, List.foldl_cons,
      List.foldl_nil, ih, foldStep, hd]
    rw [h24]
    have hsplit : v % 24 ^ (k + 1) = v % 24 + 24 * (v / 24 % 24 ^ k) := by
      rw [pow_succ, mul_comm (24 ^ k) 24, Nat.mod_mul]
    rw [hsplit, pow_succ]
    ring

/-- The pure radix-24 value of an encoded chunk is `v % 24 ^ 7`. -/
theorem groupVal_encodeChunk (v : Nat) : groupVal (encodeChunk v) = v % 24 ^ 7 := by
  have h := foldl_encodeDigits_reverse 7 v 0
  simpa [groupVal, encodeChunk] using h

/-- Decoding one encoded chunk recovers the chunk value (no wraparound for
values produced by `encode`, since `2 ^ 32 < 24 ^ 7`). -/
theorem foldGroup_encodeChunk (v : Nat) (hv : v < 2 ^ 32) :
    foldGroup (encodeChunk v) 0 = some v := by
  have hvalid : ∀ c ∈ encodeChunk v, (decodeMapLookup c).isSome := by
    intro c hc
    exact encodeDigits_valid 7 v c (List.mem_reverse.mp hc)
  rw [foldGroup_eq_groupVal _ hvalid, groupVal_encodeChunk]
  have h247 : v % 24 ^ 7 = v := Nat.mod_eq_of_lt (lt_trans hv (by norm_num))
  rw [h247, Nat.mod_eq_of_lt hv]



/-! ## List and byte plumbing -/

/-- Each canonical alphabet character is `encodeMap i` for its index `i`,
and decodes to that index. -/
theorem canonical_lookup :
    ∀ c ∈ ALPHABET, ∃ i < 24, encodeMap i = c ∧ decodeMapLookup c = some i := by decide

theorem exists_four_of_length {l : List α} (h : l.length = 4) :
    ∃ a b c d, l = [a, b, c, d] := by
  rcases l with _ | ⟨a, _ | ⟨b, _ | ⟨c, _ | ⟨d, _ | ⟨e, t⟩⟩⟩⟩⟩ <;>
    first
      | exact ⟨a, b, c, d, rfl⟩
      | simp at h

theorem exists_seven_of_length {l : List α} (h : l.length = 7) :
    ∃ a b c d e f g, l = [a, b, c, d, e, f, g] := by
  rcases l with _ | ⟨a, _ | ⟨b, _ | ⟨c, _ | ⟨d, _ | ⟨e, _ | ⟨f, _ | ⟨g, _ | ⟨x, t⟩⟩⟩⟩⟩⟩⟩⟩ <;>
    first
      | exact ⟨a, b, c, d, e, f, g, rfl⟩
      | simp at h

/-- `chunks(7)` peels a leading complete group off a concatenation. -/
theorem chunks7_append {g l : List α} (hg : g.length = 7) :
    chunks7 (g ++ l) = g :: chunks7 l := by
  obtain ⟨a, b, c, d, e, f, x, rfl⟩ := exists_seven_of_length hg
  simp [chunks7]

theorem encBody_nil : encBody ([] : List Nat) = [] := rfl

theorem encBody_cons (b0 b1 b2 b3 : Nat) (rest : List Nat) :
    encBody (b0 :: b1 :: b2 :: b3 :: rest) =
      encodeChunk (u32fromBeBytes b0 b1 b2 b3) ++ encBody rest := by
  simp [encBody, chunks4]

theorem encodeChunk_length (v : Nat) : (encodeChunk v).length = 7 := by
  simp [encodeChunk, encodeDigits_length]

theorem utf8Len_eq_length {s : List Char} (h : ∀ c ∈ s, c.utf8Size = 1) :
    utf8Len s = s.length := by
  induction s with
  | nil => rfl
  | cons c rest ih =>
    have hc := h c (by simp)
    have hrest := ih fun x hx => h x (List.mem_cons_of_mem _ hx)
    simp [utf8Len] at hrest ⊢
    omega

/-- Every character of an encoded string is a canonical alphabet symbol. -/
theorem encBody_mem (data : List Nat) :
    ∀ c ∈ encBody data, ∃ d < 24, c = encodeMap d := by
  intro c hc
  simp only [encBody, List.mem_flatten, List.mem_map] at hc
  obtain ⟨l, ⟨chunk, hchunk, rfl⟩, hcl⟩ := hc
  simp only [encodeChunk, List.mem_reverse] at hcl
  exact encodeDigits_mem 7 _ c hcl

theorem encBody_valid (data : List Nat) :
    ∀ c ∈ encBody data, (decodeMapLookup c).isSome := by
  intro c hc
  obtain ⟨d, hd, rfl⟩ := encBody_mem data c hc
  simp [lookup_encodeMap d hd]

theorem encBody_ascii (data : List Nat) : ∀ c ∈ encBody data, c.utf8Size = 1 := by
  intro c hc
  obtain ⟨d, hd, rfl⟩ := encBody_mem data c hc
  exact encodeMap_utf8Size d hd

theorem encBody_length : ∀ (n : Nat) (data : List Nat), data.length = 4 * n →
    (encBody data).length = 7 * n := by
  intro n
  induction n with
  | zero =>
    intro data hlen
    have h0 : data.length = 0 := by omega
    obtain rfl := List.eq_nil_of_length_eq_zero h0
    simp [encBody_nil]
  | succ k ih =>
    intro data hlen
    obtain ⟨b0, b1, b2, b3, rest, rfl⟩ : ∃ b0 b1 b2 b3 rest,
        data = b0 :: b1 :: b2 :: b3 :: rest := by
      have htake : (data.take 4).length = 4 := by
        simp only [List.length_take]
        omega
      obtain ⟨a, b, c, d, habcd⟩ := exists_four_of_length htake
      exact ⟨a, b, c, d, data.drop 4, by
        conv_lhs => rw [← List.take_append_drop 4 data]
        rw [habcd]; simp⟩
    have hrest : rest.length = 4 * k := by simp at hlen; omega
    rw [encBody_cons, List.length_append, encodeChunk_length, ih rest hrest]
    omega

/-- Reading 4 big-endian bytes and serialising back is the identity on
byte quadruples. -/
theorem u32_roundtrip (b0 b1 b2 b3 : Nat)
    (h0 : b0 < 256) (h1 : b1 < 256) (h2 : b2 < 256) (h3 : b3 < 256) :
    u32toBeBytes (u32fromBeBytes b0 b1 b2 b3) = [b0, b1, b2, b3] := by
  simp only [u32toBeBytes, u32fromBeBytes, List.cons.injEq, and_true]
  norm_num
  omega

theorem u32fromBeBytes_lt (b0 b1 b2 b3 : Nat)
    (h0 : b0 < 256) (h1 : b1 < 256) (h2 : b2 < 256) (h3 : b3 < 256) :
    u32fromBeBytes b0 b1 b2 b3 < 2 ^ 32 := by
  simp only [u32fromBeBytes]
  omega


/-- Splitting a list of length `4 * (k + 1)` into its first quadruple and
the rest. -/
theorem cons4_split {data : List α} {k : Nat} (h : data.length = 4 * (k + 1)) :
    ∃ b0 b1 b2 b3 rest, data = b0 :: b1 :: b2 :: b3 :: rest ∧ rest.length = 4 * k := by
  have htake : (data.take 4).length = 4 := by
    simp only [List.length_take]
    omega
  obtain ⟨a, b, c, d, habcd⟩ := exists_four_of_length htake
  refine ⟨a, b, c, d, data.drop 4, ?_, ?_⟩
  · conv_lhs => rw [← List.take_append_drop 4 data]
    rw [habcd]; simp
  · simp only [List.length_drop]
    omega

/-- Splitting a list of length `7 * (k + 1)` into its first 7-group and
the rest. -/
theorem cons7_split {s : List α} {k : Nat} (h : s.length = 7 * (k + 1)) :
    ∃ g rest, s = g ++ rest ∧ g.length = 7 ∧ rest.length = 7 * k := by
  refine ⟨s.take 7, s.drop 7, by simp, ?_, ?_⟩ <;> simp only [List.length_take, List.length_drop] <;> omega

/-- Core of the binary-side round trip: decoding the chunked groups of an
encoded string recovers, chunk by chunk, exactly the original bytes. -/
theorem encBody_core : ∀ (n : Nat) (data : List Nat), data.length = 4 * n →
    (∀ b ∈ data, b < 256) →
    ∃ vals, foldGroups (chunks7 (encBody data)) = some vals ∧
      vals.flatMap u32toBeBytes = data := by
  intro n
  induction n with
  | zero =>
    intro data hlen _
    have h0 : data.length = 0 := by omega
    obtain rfl := List.eq_nil_of_length_eq_zero h0
    exact ⟨[], by simp [encBody_nil, chunks7, foldGroups], by simp⟩
  | succ k ih =>
    intro data hlen hbytes
    obtain ⟨b0, b1, b2, b3, rest, rfl, hrest⟩ := cons4_split hlen
    have hb0 : b0 < 256 := hbytes _ (by simp)
    have hb1 : b1 < 256 := hbytes _ (by simp)
    have hb2 : b2 < 256 := hbytes _ (by simp)
    have hb3 : b3 < 256 := hbytes _ (by simp)
    have hv : u32fromBeBytes b0 b1 b2 b3 < 2 ^ 32 := u32fromBeBytes_lt _ _ _ _ hb0 hb1 hb2 hb3
    obtain ⟨vals, hvals, hflat⟩ := ih rest hrest fun b hb =>
      hbytes b (by simp [hb])
    refine ⟨u32fromBeBytes b0 b1 b2 b3 :: vals, ?_, ?_⟩
    · rw [encBody_cons, chunks7_append (encodeChunk_length _)]
      simp [foldGroups, foldGroup_encodeChunk _ hv, hvals]
    · simp only [List.flatMap_cons, hflat, u32_roundtrip b0 b1 b2 b3 hb0 hb1 hb2 hb3]
      simp


/-- `find?` returns the head of the first satisfying position. -/
theorem find?_first {p : Char → Bool} (pre : List Char) (suf : List Char) (c : Char)
    (hpre : ∀ x ∈ pre, ¬ p x) (hc : p c) :
    (pre ++ c :: suf).find? p = some c := by
  induction pre with
  | nil => simp [List.find?_cons_of_pos _ hc]
  | cons a t ih =>
    have ha : ¬ p a := hpre a (by simp)
    rw [List.cons_append, List.find?_cons_of_neg _ ha]
    exact ih fun x hx => hpre x (by simp [hx])

/-- Every element of every `chunks(7)` group comes from the original list. -/
theorem chunks7_mem {s : List α} : ∀ g ∈ chunks7 s, ∀ x ∈ g, x ∈ s := by
  induction s using chunks7.induct with
  | case1 c0 c1 c2 c3 c4 c5 c6 rest ih =>
    intro g hg x hx
    simp only [chunks7, List.mem_cons] at hg
    rcases hg with rfl | hg
    · simp at hx
      rcases hx with h | h | h | h | h | h | h <;> simp [h]
    · have := ih g hg x hx
      simp [this]
  | case2 => simp [chunks7]
  | case3 l h1 h2 =>
    intro g hg x hx
    rw [chunks7.eq_def] at hg
    rcases l with _ | ⟨a, t⟩
    · simp at hg
    · simp at hg
      exact hg ▸ hx

/-- The per-group fold stage never panics when every character is
supported. -/
theorem foldGroups_isSome {gs : List (List Char)}
    (h : ∀ g ∈ gs, ∀ c ∈ g, (decodeMapLookup c).isSome) :
    (foldGroups gs).isSome := by
  induction gs with
  | nil => simp [foldGroups]
  | cons g rest ih =>
    obtain ⟨v, hv⟩ := Option.isSome_iff_exists.mp
      (foldGroup_isSome g (h g (by simp)) 0)
    obtain ⟨vs, hvs⟩ := Option.isSome_iff_exists.mp
      (ih fun g' hg' => h g' (by simp [hg']))
    simp [foldGroups, hv, hvs]

/-- Canonical symbols are members of the alphabet. -/
theorem encodeMap_mem : ∀ d < 24, encodeMap d ∈ ALPHABET := by decide

theorem flatMap_u32_length (vals : List Nat) :
    (vals.flatMap u32toBeBytes).length = 4 * vals.length := by
  induction vals with
  | nil => simp
  | cons v t ih =>
    simp [List.flatMap_cons, u32toBeBytes, ih]
    omega

/-- Decoding the groups of any all-supported string of length `7 * n`
never panics and yields exactly `n` chunk values. -/
theorem decode_valid_core : ∀ (n : Nat) (s : List Char), s.length = 7 * n →
    (∀ c ∈ s, (decodeMapLookup c).isSome) →
    ∃ vals, foldGroups (chunks7 s) = some vals ∧ vals.length = n := by
  intro n
  induction n with
  | zero =>
    intro s h0 _
    have hnil : s.length = 0 := by omega
    obtain rfl := List.eq_nil_of_length_eq_zero hnil
    exact ⟨[], by simp [chunks7, foldGroups], rfl⟩
  | succ k ih =>
    intro s hlen hvalid
    obtain ⟨g, rest, rfl, hg7, hrest⟩ := cons7_split hlen
    obtain ⟨v, hv⟩ := Option.isSome_iff_exists.mp
      (foldGroup_isSome g (fun c hc => hvalid c (by simp [hc])) 0)
    obtain ⟨vals, hvals, hvlen⟩ := ih rest hrest fun c hc => hvalid c (by simp [hc])
    refine ⟨v :: vals, ?_, by simp [hvlen]⟩
    rw [chunks7_append hg7]
    simp [foldGroups, hv, hvals]

/-- Serialising a 32-bit value to big-endian bytes and reading it back is
the identity. -/
theorem u32toBe_fromBe (v : Nat) (hv : v < 2 ^ 32) :
    u32fromBeBytes (v / 2 ^ 24 % 256) (v / 2 ^ 16 % 256) (v / 2 ^ 8 % 256) (v % 256) = v := by
  simp only [u32fromBeBytes]
  omega

/-- Re-encoding the radix-24 value of a canonical-case group reproduces its
digits (least-significant-first, hence the reverse). -/
theorem encodeDigits_groupVal : ∀ (g : List Char), (∀ c ∈ g, c ∈ ALPHABET) →
    encodeDigits g.length (groupVal g) = g.reverse := by
  intro g
  induction g using List.reverseRecOn with
  | nil => intro _; simp [encodeDigits]
  | append_singleton l c ih =>
    intro hcanon
    obtain ⟨i, hi24, hmap, hlook⟩ := canonical_lookup c (hcanon c (by simp))
    have hl : ∀ x ∈ l, x ∈ ALPHABET := fun x hx => hcanon x (by simp [hx])
    have h24 : ALPHABET_LENGTH = 24 := rfl
    have hval : groupVal (l ++ [c]) = 24 * groupVal l + i := by
      simp [groupVal, List.foldl_append, foldStep, hlook, h24]
    have hlen : (l ++ [c]).length = l.length + 1 := by simp
    rw [hlen, hval, encodeDigits, h24]
    have hmod : (24 * groupVal l + i) % 24 = i := by omega
    have hdiv : (24 * groupVal l + i) / 24 = groupVal l := by omega
    rw [hmod, hdiv, hmap]
    have ihl := ih hl
    rw [groupVal] at ihl
    rw [groupVal, ihl]
    simp

/-- Core of the text-side round trip: for canonical groups whose values fit
in 32 bits, decoding then re-encoding reproduces the original string. -/
theorem canon_core : ∀ (n : Nat) (s : List Char), s.length = 7 * n →
    (∀ c ∈ s, c ∈ ALPHABET) →
    (∀ g ∈ chunks7 s, groupVal g < 2 ^ 32) →
    ∃ vals, foldGroups (chunks7 s) = some vals ∧
      (vals.flatMap u32toBeBytes).length = 4 * n ∧
      encBody (vals.flatMap u32toBeBytes) = s := by
  intro n
  induction n with
  | zero =>
    intro s h0 _ _
    have hnil : s.length = 0 := by omega
    obtain rfl := List.eq_nil_of_length_eq_zero hnil
    exact ⟨[], by simp [chunks7, foldGroups], by simp, by simp [encBody_nil]⟩
  | succ k ih =>
    intro s hlen hcanon hrange
    obtain ⟨g, rest, rfl, hg7, hrest⟩ := cons7_split hlen
    have hgcanon : ∀ c ∈ g, c ∈ ALPHABET := fun c hc => hcanon c (by simp [hc])
    have hgvalid : ∀ c ∈ g, (decodeMapLookup c).isSome := fun c hc => by
      obtain ⟨i, _, _, hlook⟩ := canonical_lookup c (hgcanon c hc)
      simp [hlook]
    have hgrange : groupVal g < 2 ^ 32 := hrange g (by rw [chunks7_append hg7]; simp)
    have hfold : foldGroup g 0 = some (groupVal g) := by
      rw [foldGroup_eq_groupVal g hgvalid, Nat.mod_eq_of_lt hgrange]
    obtain ⟨vals, hvals, hblen, hbody⟩ := ih rest hrest
      (fun c hc => hcanon c (by simp [hc]))
      (fun g' hg' => hrange g' (by rw [chunks7_append hg7]; simp [hg']))
    refine ⟨groupVal g :: vals, ?_, ?_, ?_⟩
    · rw [chunks7_append hg7]
      simp [foldGroups, hfold, hvals]
    · simp [List.flatMap_cons, u32toBeBytes, hblen]
      omega
    · have henc : encodeChunk (groupVal g) = g := by
        rw [encodeChunk, ← hg7, encodeDigits_groupVal g hgcanon, List.reverse_reverse]
      calc encBody ((groupVal g :: vals).flatMap u32toBeBytes)
          = encBody (u32toBeBytes (groupVal g) ++ vals.flatMap u32toBeBytes) := by
            simp [List.flatMap_cons]
        _ = encodeChunk (u32fromBeBytes (groupVal g / 2 ^ 24 % 256)
              (groupVal g / 2 ^ 16 % 256) (groupVal g / 2 ^ 8 % 256)
              (groupVal g % 256)) ++ encBody (vals.flatMap u32toBeBytes) := by
            rw [u32toBeBytes, List.cons_append, List.cons_append, List.cons_append,
              List.cons_append, List.nil_append, encBody_cons]
        _ = g ++ rest := by rw [u32toBe_fromBe _ hgrange, henc, hbody]

/-- Replacing a supported character by an ASCII case variant leaves its
`decode_map` digit unchanged. -/
theorem lookup_case_eq {a b : Char} (ha : (decodeMapLookup a).isSome)
    (h : b = a ∨ b = Char.toLower a ∨ b = Char.toUpper a) :
    decodeMapLookup b = decodeMapLookup a := by
  obtain ⟨i, hi⟩ := Option.isSome_iff_exists.mp ha
  have hcase := decodeMapList_case (a, i) (mem_of_lookup_eq_some hi)
  rcases h with rfl | rfl | rfl
  · rfl
  · exact hcase.1
  · exact hcase.2

/-- Pointwise case variation of a supported string gives pointwise equal
`decode_map` lookups. -/
theorem forall₂_lookup_of_case : ∀ {s t : List Char},
    List.Forall₂ (fun a b => b = a ∨ b = Char.toLower a ∨ b = Char.toUpper a) s t →
    (∀ c ∈ s, (decodeMapLookup c).isSome) →
    List.Forall₂ (fun a b => decodeMapLookup b = decodeMapLookup a) s t := by
  intro s t hvar
  induction hvar with
  | nil => intro _; exact .nil
  | @cons a b l1 l2 hab htail ih =>
    intro hvalid
    exact .cons (lookup_case_eq (hvalid a (by simp)) hab)
      (ih fun c hc => hvalid c (by simp [hc]))

theorem forall₂_valid_right : ∀ {s t : List Char},
    List.Forall₂ (fun a b => decodeMapLookup b = decodeMapLookup a) s t →
    (∀ c ∈ s, (decodeMapLookup c).isSome) →
    ∀ c ∈ t, (decodeMapLookup c).isSome := by
  intro s t h
  induction h with
  | nil => intro _ c hc; simp at hc
  | @cons a b l1 l2 hab htail ih =>
    intro hvalid c hc
    rcases List.mem_cons.mp hc with rfl | hc
    · rw [hab]
      exact hvalid a (by simp)
    · exact ih (fun x hx => hvalid x (by simp [hx])) c hc

/-- The wrapping fold only looks at `decode_map` digits. -/
theorem foldGroup_congr : ∀ {g g' : List Char},
    List.Forall₂ (fun a b => decodeMapLookup b = decodeMapLookup a) g g' →
    ∀ acc, foldGroup g' acc = foldGroup g acc := by
  intro g g' h
  induction h with
  | nil => intro _; rfl
  | @cons a b l1 l2 hab htail ih =>
    intro acc
    simp only [foldGroup, hab]
    cases decodeMapLookup a with
    | none => rfl
    | some i => exact ih _

/-- Group-fold results agree on strings with pointwise equal lookups. -/
theorem foldGroups_congr : ∀ (n : Nat) {s t : List Char}, s.length = 7 * n →
    List.Forall₂ (fun a b => decodeMapLookup b = decodeMapLookup a) s t →
    foldGroups (chunks7 t) = foldGroups (chunks7 s) := by
  intro n
  induction n with
  | zero =>
    intro s t h0 hlook
    have hs : s.length = 0 := by omega
    obtain rfl := List.eq_nil_of_length_eq_zero hs
    obtain rfl := List.forall₂_nil_left_iff.mp hlook
    rfl
  | succ k ih =>
    intro s t hlen hlook
    obtain ⟨g, rest, rfl, hg7, hrest⟩ := cons7_split hlen
    have htlen : t.length = 7 * (k + 1) := by rw [← hlook.length_eq]; exact hlen
    obtain ⟨g', rest', rfl, hg7', hrest'⟩ := cons7_split htlen
    have htake := List.forall₂_take 7 hlook
    have hdrop := List.forall₂_drop 7 hlook
    rw [List.take_left' hg7, List.take_left' hg7'] at htake
    rw [List.drop_left' hg7, List.drop_left' hg7'] at hdrop
    rw [chunks7_append hg7, chunks7_append hg7']
    simp only [foldGroups, foldGroup_congr htake 0, ih hrest hdrop]

/-! ## The claims -/

/-- C1: for every byte sequence `b` whose length is a multiple of 4 (bytes
being values below 256), `encode b` succeeds and `decode` applied to its
result succeeds (no panic) and returns exactly `b`. -/
theorem claim_C1 (data : List Nat) (h4 : data.length % 4 = 0)
    (hbytes : ∀ b ∈ data, b < 256) :
    ∃ s, encode data = .ok s ∧ decode s = some (.ok data) := by
  have hn : data.length = 4 * (data.length / 4) := by omega
  refine ⟨encBody data, by simp [encode, h4], ?_⟩
  have hlen7 : utf8Len (encBody data) = 7 * (data.length / 4) := by
    rw [utf8Len_eq_length (encBody_ascii data), encBody_length _ data hn]
  have hfind : (encBody data).find? (fun c => (decodeMapLookup c).isNone) = none := by
    refine List.find?_eq_none.mpr fun c hc => ?_
    obtain ⟨i, hi⟩ := Option.isSome_iff_exists.mp (encBody_valid data c hc)
    simp [hi]
  obtain ⟨vals, hvals, hflat⟩ := encBody_core _ data hn hbytes
  simp only [decode, hlen7, Nat.mul_mod_right, hfind, hvals, hflat]
  simp

/-- Witness for C1 at the concrete input `[0, 0, 0, 1]`. -/
theorem claim_C1_witness :
    ∃ s, encode [0, 0, 0, 1] = .ok s ∧ decode s = some (.ok [0, 0, 0, 1]) :=
  claim_C1 [0, 0, 0, 1] (by decide) (by decide)

/-- C7: `encode` fails with `EncodeInputLengthInvalid` (producing no output)
iff the input byte length is not a multiple of 4, and succeeds on every
input whose length is divisible by 4. -/
theorem claim_C7 (data : List Nat) :
    (encode data = .error .EncodeInputLengthInvalid ↔ data.length % 4 ≠ 0) ∧
    (data.length % 4 = 0 → ∃ out, encode data = .ok out) := by
  refine ⟨⟨fun h => ?_, fun h => by simp [encode, h]⟩, fun h => ⟨encBody data, by simp [encode, h]⟩⟩
  intro hc
  simp [encode, hc] at h

/-- Witness for C7: the success side at the concrete input `[0, 0, 0, 0]`. -/
theorem claim_C7_witness : ∃ out, encode [0, 0, 0, 0] = .ok out :=
  (claim_C7 [0, 0, 0, 0]).2 (by decide)

/-- C9: the boundary values: `encode [0,0,0,0] = "ZZZZZZZ"`,
`encode [0xFF,0xFF,0xFF,0xFF] = "X5GGBH7"`, `decode "ZZZZZZA" = [0,0,0,1]`. -/
theorem claim_C9 :
    encode [0, 0, 0, 0] = .ok "ZZZZZZZ".data ∧
    encode [0xFF, 0xFF, 0xFF, 0xFF] = .ok "X5GGBH7".data ∧
    decode "ZZZZZZA".data = some (.ok [0, 0, 0, 1]) :=
  ⟨rfl, rfl, rfl⟩

/-- C10: the empty byte sequence encodes to the empty string and the empty
string decodes to the empty byte sequence. -/
theorem claim_C10 :
    encode ([] : List Nat) = .ok [] ∧ decode ([] : List Char) = some (.ok []) :=
  ⟨rfl, rfl⟩


/-- C2 (amended): `decode` fails with `DecodeInputLengthInvalid` exactly
when its UTF-8 *byte* count (not its character count) is not a multiple
of 7. -/
theorem claim_C2 (s : List Char) :
    decode s = some (.error .DecodeInputLengthInvalid) ↔ utf8Len s % 7 ≠ 0 := by
  constructor
  · intro h hc
    rcases h1 : s.find? (fun c => (decodeMapLookup c).isNone) with _ | c <;>
      rcases h2 : foldGroups (chunks7 s) with _ | vals <;>
        simp [decode, hc, h1, h2] at h
  · intro h
    simp [decode, h]

/-- Counterexample to C2 as stated: `['Z', 'Z', 'Z', '😋']` has 4
characters (4 is not a multiple of 7) but 7 UTF-8 bytes, and `decode`
reports `DecodeUnsupportedCharacter`, not `DecodeInputLengthInvalid`. -/
theorem claim_C2_counterexample :
    (['Z', 'Z', 'Z', '😋'] : List Char).length % 7 ≠ 0 ∧
    decode ['Z', 'Z', 'Z', '😋'] ≠ some (.error .DecodeInputLengthInvalid) ∧
    decode ['Z', 'Z', 'Z', '😋'] =
      some (.error (.DecodeUnsupportedCharacter '😋')) := by
  have h : decode ['Z', 'Z', 'Z', '😋'] =
      some (.error (.DecodeUnsupportedCharacter '😋')) := rfl
  exact ⟨by decide, by rw [h]; simp, h⟩

/-- C3: `decode` never panics — it always returns an explicit value
(`isSome` in the panic-modelling `Option`); and on any 7-char group of
supported symbols the fold is 32-bit wraparound arithmetic: it returns the
pure radix-24 value reduced modulo `2 ^ 32` (so groups whose value exceeds
`2 ^ 32 - 1` still yield a byte result). -/
theorem claim_C3 :
    (∀ s : List Char, (decode s).isSome) ∧
    (∀ g : List Char, (∀ c ∈ g, (decodeMapLookup c).isSome) →
      foldGroup g 0 = some (groupVal g % 2 ^ 32)) := by
  refine ⟨fun s => ?_, foldGroup_eq_groupVal⟩
  by_cases h7 : utf8Len s % 7 ≠ 0
  · simp [decode, h7]
  · rcases hf : s.find? (fun c => (decodeMapLookup c).isNone) with _ | c
    · have hvalid : ∀ c ∈ s, (decodeMapLookup c).isSome := by
        intro c hc
        have h := List.find?_eq_none.mp hf c hc
        exact Option.ne_none_iff_isSome.mp (by simpa using h)
      obtain ⟨vals, hvals⟩ := Option.isSome_iff_exists.mp
        (foldGroups_isSome fun g hgm c hcm => hvalid c (chunks7_mem g hgm c hcm))
      simp [decode, h7, hf, hvals]
    · simp [decode, h7, hf]

/-- Witness for C3: a length-1 input, and the 7-char group `"YZZZZZZ"`
whose radix-24 value `4395368448` exceeds `2 ^ 32 - 1`. -/
theorem claim_C3_witness :
    (decode ['Z']).isSome ∧
    foldGroup "YZZZZZZ".data 0 = some (groupVal "YZZZZZZ".data % 2 ^ 32) :=
  ⟨claim_C3.1 ['Z'], claim_C3.2 "YZZZZZZ".data (by decide)⟩

/-- C6: on a length-valid input whose first unsupported character (in
left-to-right order) is `c` — every earlier character being supported —
`decode` fails with `DecodeUnsupportedCharacter c` and produces no bytes;
`c` may be any code point (e.g. an emoji). -/
theorem claim_C6 (pre suf : List Char) (c : Char)
    (hvalid : ∀ x ∈ pre, (decodeMapLookup x).isSome)
    (hbad : decodeMapLookup c = none)
    (hlen : utf8Len (pre ++ c :: suf) % 7 = 0) :
    decode (pre ++ c :: suf) = some (.error (.DecodeUnsupportedCharacter c)) := by
  have hfind : (pre ++ c :: suf).find? (fun x => (decodeMapLookup x).isNone) = some c := by
    refine find?_first pre suf c (fun x hx => ?_) (by simp [hbad])
    obtain ⟨i, hi⟩ := Option.isSome_iff_exists.mp (hvalid x hx)
    simp [hi]
  simp [decode, hlen, hfind]

/-- Witness for C6: `"ZZZ😋"` (7 UTF-8 bytes) fails on the non-ASCII code
point `'😋'`, carried in the error. -/
theorem claim_C6_witness :
    decode ['Z', 'Z', 'Z', '😋'] = some (.error (.DecodeUnsupportedCharacter '😋')) :=
  claim_C6 ['Z', 'Z', 'Z'] [] '😋' (by decide) (by decide) (by decide)


/-- C8: length contracts and output alphabet.  `encode` on a length-`4k`
input returns `len/4*7` characters, all canonical alphabet symbols; and
`decode` on any valid string (supported characters, `7k` of them) returns
`len/7*4` bytes. -/
theorem claim_C8 :
    (∀ data : List Nat, data.length % 4 = 0 →
      ∃ out, encode data = .ok out ∧ out.length = data.length / 4 * 7 ∧
        ∀ c ∈ out, c ∈ ALPHABET) ∧
    (∀ s : List Char, s.length % 7 = 0 → (∀ c ∈ s, (decodeMapLookup c).isSome) →
      ∃ bs, decode s = some (.ok bs) ∧ bs.length = s.length / 7 * 4) := by
  constructor
  · intro data h4
    have hn : data.length = 4 * (data.length / 4) := by omega
    refine ⟨encBody data, by simp [encode, h4], ?_, ?_⟩
    · rw [encBody_length _ data hn]
      omega
    · intro c hc
      obtain ⟨d, hd, rfl⟩ := encBody_mem data c hc
      exact encodeMap_mem d hd
  · intro s h7 hvalid
    have hascii : ∀ c ∈ s, c.utf8Size = 1 := fun c hc => by
      obtain ⟨i, hi⟩ := Option.isSome_iff_exists.mp (hvalid c hc)
      exact (lookup_some_ascii hi).1
    have hutf : utf8Len s = s.length := utf8Len_eq_length hascii
    have hn : s.length = 7 * (s.length / 7) := by omega
    obtain ⟨vals, hvals, hvlen⟩ := decode_valid_core _ s hn hvalid
    have hfind : s.find? (fun c => (decodeMapLookup c).isNone) = none := by
      refine List.find?_eq_none.mpr fun c hc => ?_
      obtain ⟨i, hi⟩ := Option.isSome_iff_exists.mp (hvalid c hc)
      simp [hi]
    refine ⟨vals.flatMap u32toBeBytes, ?_, ?_⟩
    · simp [decode, hutf, h7, hfind, hvals]
    · rw [flatMap_u32_length, hvlen]
      omega

/-- Witness for C8 on `[1, 2, 3, 4]` (encode side) and `"ZZZZZZA"`
(decode side). -/
theorem claim_C8_witness :
    (∃ out, encode [1, 2, 3, 4] = .ok out ∧
      out.length = ([1, 2, 3, 4] : List Nat).length / 4 * 7 ∧
      ∀ c ∈ out, c ∈ ALPHABET) ∧
    (∃ bs, decode "ZZZZZZA".data = some (.ok bs) ∧
      bs.length = "ZZZZZZA".data.length / 7 * 4) :=
  ⟨claim_C8.1 [1, 2, 3, 4] (by decide), claim_C8.2 "ZZZZZZA".data (by decide) (by decide)⟩


/-- C4 (amended): for every 7k-character canonical-case string over the
alphabet *whose 7-char groups each have radix-24 value below `2 ^ 32`*,
`decode` succeeds and `encode` of the result returns the string itself. -/
theorem claim_C4 (s : List Char) (hlen : s.length % 7 = 0)
    (hcanon : ∀ c ∈ s, c ∈ ALPHABET)
    (hrange : ∀ g ∈ chunks7 s, groupVal g < 2 ^ 32) :
    ∃ bs, decode s = some (.ok bs) ∧ encode bs = .ok s := by
  have hn : s.length = 7 * (s.length / 7) := by omega
  obtain ⟨vals, hvals, hblen, hbody⟩ := canon_core _ s hn hcanon hrange
  have hvalid : ∀ c ∈ s, (decodeMapLookup c).isSome := fun c hc => by
    obtain ⟨i, _, _, hlook⟩ := canonical_lookup c (hcanon c hc)
    simp [hlook]
  have hascii : ∀ c ∈ s, c.utf8Size = 1 := fun c hc => by
    obtain ⟨i, hi⟩ := Option.isSome_iff_exists.mp (hvalid c hc)
    exact (lookup_some_ascii hi).1
  have hutf : utf8Len s = s.length := utf8Len_eq_length hascii
  have hfind : s.find? (fun c => (decodeMapLookup c).isNone) = none := by
    refine List.find?_eq_none.mpr fun c hc => ?_
    obtain ⟨i, hi⟩ := Option.isSome_iff_exists.mp (hvalid c hc)
    simp [hi]
  refine ⟨vals.flatMap u32toBeBytes, ?_, ?_⟩
  · simp [decode, hutf, hlen, hfind, hvals]
  · have h4 : (vals.flatMap u32toBeBytes).length % 4 = 0 := by
      rw [hblen]
      omega
    simp only [encode, h4, hbody]
    simp

/-- Counterexample to C4 as stated: `"YZZZZZZ"` is a 7-character
canonical-case string over the alphabet, but its radix-24 value
`23 * 24 ^ 6 = 4395368448` wraps modulo `2 ^ 32` to `100401152`, so
decoding gives `[5, 252, 0, 0]` and re-encoding gives `"ZT66SK4"`, not
`"YZZZZZZ"`. -/
theorem claim_C4_counterexample :
    (∀ c ∈ "YZZZZZZ".data, c ∈ ALPHABET) ∧
    "YZZZZZZ".data.length % 7 = 0 ∧
    decode "YZZZZZZ".data = some (.ok [5, 252, 0, 0]) ∧
    encode [5, 252, 0, 0] = .ok "ZT66SK4".data ∧
    "ZT66SK4".data ≠ "YZZZZZZ".data :=
  ⟨by decide, by decide, rfl, rfl, by decide⟩

/-- Witness for C4 (amended) on `"X5GGBH7"`, whose single group has value
exactly `2 ^ 32 - 1`. -/
theorem claim_C4_witness :
    ∃ bs, decode "X5GGBH7".data = some (.ok bs) ∧
      encode bs = .ok "X5GGBH7".data :=
  claim_C4 "X5GGBH7".data (by decide) (by decide) (by decide)


/-- C5: decode is case-insensitive: on a valid input (7k supported
characters), replacing each character by any ASCII case variant (itself,
its lowercase, or its uppercase form) — in particular lowercasing or
mixing cases — leaves the decode result unchanged. -/
theorem claim_C5 (s t : List Char) (hlen : s.length % 7 = 0)
    (hvalid : ∀ c ∈ s, (decodeMapLookup c).isSome)
    (hvar : List.Forall₂ (fun a b => b = a ∨ b = Char.toLower a ∨ b = Char.toUpper a) s t) :
    decode t = decode s := by
  have hlook := forall₂_lookup_of_case hvar hvalid
  have hvalidt := forall₂_valid_right hlook hvalid
  have hutfs : utf8Len s = s.length := utf8Len_eq_length fun c hc => by
    obtain ⟨i, hi⟩ := Option.isSome_iff_exists.mp (hvalid c hc)
    exact (lookup_some_ascii hi).1
  have hutft : utf8Len t = t.length := utf8Len_eq_length fun c hc => by
    obtain ⟨i, hi⟩ := Option.isSome_iff_exists.mp (hvalidt c hc)
    exact (lookup_some_ascii hi).1
  have hlength : t.length = s.length := hlook.length_eq.symm
  have hfinds : s.find? (fun c => (decodeMapLookup c).isNone) = none := by
    refine List.find?_eq_none.mpr fun c hc => ?_
    obtain ⟨i, hi⟩ := Option.isSome_iff_exists.mp (hvalid c hc)
    simp [hi]
  have hfindt : t.find? (fun c => (decodeMapLookup c).isNone) = none := by
    refine List.find?_eq_none.mpr fun c hc => ?_
    obtain ⟨i, hi⟩ := Option.isSome_iff_exists.mp (hvalidt c hc)
    simp [hi]
  have hn : s.length = 7 * (s.length / 7) := by omega
  have hgroups := foldGroups_congr (s.length / 7) hn hlook
  simp only [decode, hutfs, hutft, hlength, hlen, hfinds, hfindt, hgroups]

/-- Witness for C5: the mixed-case `"x5Ggbh7"` decodes exactly like the
canonical `"X5GGBH7"`. -/
theorem claim_C5_witness : decode "x5Ggbh7".data = decode "X5GGBH7".data :=
  claim_C5 "X5GGBH7".data "x5Ggbh7".data (by decide) (by decide)
    (.cons (by decide) (.cons (by decide) (.cons (by decide) (.cons (by decide)
      (.cons (by decide) (.cons (by decide) (.cons (by decide) .nil)))))))

end Base24
